import Mathlib

open scoped List

/-!
Verification development for a classical-cipher-breaking library
(`englishScore` language model plus `substitutionBreaker`).

The TypeScript source is embedded shallowly:
* strings are Lean `String`s / `List Char`s;
* `Float64Array` tables of log-probabilities are `List ℝ` (IEEE doubles
  modeled as real numbers; `Math.log` is `Real.log`, and the IEEE fact
  that `Math.log x` is a finite double exactly when `0 < x` is used when
  a claim speaks about finiteness of an entry);
* `Number.NEGATIVE_INFINITY`, the score of an empty candidate, is the
  bottom element of `EReal`, so scores live in `EReal`;
* `Math.random()` driven choices are passed in explicitly as streams of
  natural numbers resp. lists of index pairs;
* thrown exceptions become an `Except` error variant.
-/

/-- Fixed alphabet: A-Z plus space (27 characters total).
Source: `ALPHABET` in the language-model module. -/
def ALPHABET : String := "ABCDEFGHIJKLMNOPQRSTUVWXYZ "

/-- The alphabet as a list of characters. -/
def alphabetChars : List Char := ALPHABET.data

/-- Total number of characters in the alphabet.
Source: `ALPHABET_SIZE`. -/
def ALPHABET_SIZE : ℕ := 27

/-- Index of the first occurrence of an element in a list; returns the
length of the list when the element is absent.  This models the
`charToIndex` lookup table built from `ALPHABET` (an absent character
gives `undefined` in the source; the out-of-range index 27 plays that
role here and is never reached on normalized input). -/
def idxOf {α : Type} [DecidableEq α] (c : α) : List α → ℕ
| [] => 0
| d :: rest => if c = d then 0 else idxOf c rest + 1

/-- `charToIndex` lookup: index of a character in the fixed alphabet. -/
def alphIndex (c : Char) : ℕ := idxOf c alphabetChars

/-- Membership test `char in charToIndex` used by the normalizer. -/
def inAlphabet (c : Char) : Bool := decide (c ∈ alphabetChars)

/-- Is the character one of the characters collapsed by the first
regular expression of `normalizeEnglish` (`[\n\r\t]+` to a space)? -/
def isCtlChar (c : Char) : Bool := c = '\n' || c = '\r' || c = '\t'

/-- Is the character one of the punctuation marks replaced by a space by
the second regular expression of `normalizeEnglish`? -/
def isPunctChar (c : Char) : Bool :=
  c = '.' || c = ',' || c = ';' || c = ':' || c = '!' || c = '?' ||
  c = '\'' || c = '"' || c = '(' || c = ')' || c = '[' || c = ']' ||
  c = '\x7b' || c = '\x7d'

/-- First regex of `normalizeEnglish`, processed left to right: the
boolean flag records whether a run of newline / carriage-return / tab
characters is in progress, so each maximal run contributes exactly one
space. -/
def replaceCtlAux : List Char → Bool → List Char
| [], _ => []
| c :: rest, inRun =>
  if isCtlChar c then
    if inRun then replaceCtlAux rest true
    else ' ' :: replaceCtlAux rest true
  else c :: replaceCtlAux rest false

/-- First regex of `normalizeEnglish`: each maximal run of newline,
carriage-return and tab characters is replaced by a single space. -/
def replaceCtlRuns (l : List Char) : List Char := replaceCtlAux l false

/-- Second regex of `normalizeEnglish`: each punctuation mark is
replaced by a space. -/
def replacePunct (c : Char) : Char := if isPunctChar c then ' ' else c

/-- The character loop of `normalizeEnglish`: keep only characters of
the alphabet, and drop a space whenever the previously kept character
was a space (the flag starts `true`, which also drops leading spaces). -/
def normalizeLoop : List Char → Bool → List Char
| [], _ => []
| c :: rest, lastWasSpace =>
  if inAlphabet c then
    if c = ' ' then
      if lastWasSpace then normalizeLoop rest true
      else ' ' :: normalizeLoop rest true
    else c :: normalizeLoop rest false
  else normalizeLoop rest lastWasSpace

/-- The final `.trim()` of `normalizeEnglish`: drop spaces from both
ends (the kept characters contain no other whitespace at this point). -/
def trimChars (l : List Char) : List Char :=
  (((l.dropWhile (· == ' ')).reverse.dropWhile (· == ' ')).reverse)

/-- `normalizeEnglish`: uppercase, map line breaks / tabs / punctuation
to spaces, keep only alphabet characters, collapse space runs and trim.
`String.prototype.toUpperCase` is modeled per character with
`Char.toUpper`; multi-character Unicode expansions are not represented
(such characters are outside the alphabet and are dropped anyway). -/
def normalizeEnglish (text : String) : String :=
  String.mk
    (trimChars
      (normalizeLoop
        (((replaceCtlRuns text.data).map replacePunct).map Char.toUpper) true))

/-- Error kinds surfaced by the library: `InsufficientCorpus` from
`buildLanguageModel`, `EmptyCiphertext` and the internal
`No solution found` error from `breakSubstitutionCipher`. -/
inductive BreakError where
| insufficientCorpus
| emptyCiphertext
| noSolutionFound
deriving DecidableEq

/-- The three counter tables filled by the counting loop of
`buildLanguageModel` (`Float64Array`s of counts, modeled as functions
from indices to counts). -/
structure PassCounts where
  uni : ℕ → ℕ
  bi : ℕ → ℕ → ℕ
  row : ℕ → ℕ

/-- Increment one cell of a counter table. -/
def bump (f : ℕ → ℕ) (x : ℕ) : ℕ → ℕ := fun y => if y = x then f y + 1 else f y

/-- The counting loop of `buildLanguageModel` for positions `i > 0`:
`prev` is the index of the previous character; each step increments the
unigram count of the current character, the bigram count of
`(prev, current)` and the row total of `prev`. -/
def passAux (uni : ℕ → ℕ) (bi : ℕ → ℕ → ℕ) (row : ℕ → ℕ) (prev : ℕ) :
    List ℕ → PassCounts
| [] => ⟨uni, bi, row⟩
| c :: rest =>
  passAux (bump uni c) (fun p s => if p = prev ∧ s = c then bi p s + 1 else bi p s)
    (bump row prev) c rest

/-- The whole counting loop of `buildLanguageModel`: the first
character only gets a unigram count, later characters also feed the
bigram tables. -/
def countPass : List ℕ → PassCounts
| [] => ⟨fun _ => 0, fun _ _ => 0, fun _ => 0⟩
| c :: rest => passAux (bump (fun _ => 0) c) (fun _ _ => 0) (fun _ => 0) c rest

/-- Smoothed unigram probability `(count[i] + k) / (N + k*27)` computed
by `buildLanguageModel` before taking the logarithm. -/
noncomputable def smoothedUnigramProb (idxs : List ℕ) (N : ℕ) (k : ℝ) (i : ℕ) : ℝ :=
  (((countPass idxs).uni i : ℝ) + k) / ((N : ℝ) + k * 27)

/-- Smoothed bigram probability
`(count[p,s] + k) / (rowTotal[p] + k*27)` computed by
`buildLanguageModel` before taking the logarithm. -/
noncomputable def smoothedBigramProb (idxs : List ℕ) (k : ℝ) (p s : ℕ) : ℝ :=
  (((countPass idxs).bi p s : ℝ) + k) / (((countPass idxs).row p : ℝ) + k * 27)

/-- Trained language model: 27 unigram log-probabilities, 27×27 bigram
log-probabilities in a flattened table indexed by `prev * 27 + curr`,
and the bigram weight. -/
structure LanguageModel where
  unigramLogProb : List ℝ
  bigramLogProb : List ℝ
  lambdaBigram : ℝ

/-- `buildLanguageModel`: normalize the corpus, fail with
`InsufficientCorpus` when fewer than 2 characters remain, otherwise
count unigrams and bigrams in one pass and take logs of the
add-k-smoothed probabilities.  The two option fields `smoothingK`
(default 1.0) and `lambdaBigram` (default 0.7) are explicit
arguments. -/
noncomputable def buildLanguageModel (corpusRaw : String) (smoothingK lambdaBigram : ℝ) :
    Except BreakError LanguageModel :=
  let corpus := normalizeEnglish corpusRaw
  if corpus.length < 2 then .error .insufficientCorpus
  else
    let idxs := corpus.data.map alphIndex
    .ok
      { unigramLogProb :=
          (List.range 27).map fun i => Real.log (smoothedUnigramProb idxs corpus.length smoothingK i)
        bigramLogProb :=
          (List.range (27 * 27)).map fun n =>
            Real.log (smoothedBigramProb idxs smoothingK (n / 27) (n % 27))
        lambdaBigram := lambdaBigram }

/-- The scoring loop of `scoreText` for positions `i > 0`: accumulates
the unigram sum and the bigram sum separately, tracking the previous
character index. -/
def scoreAux (m : LanguageModel) : ℝ × ℝ → ℕ → List ℕ → ℝ × ℝ
| (su, sb), _, [] => (su, sb)
| (su, sb), prev, c :: rest =>
  scoreAux m (su + m.unigramLogProb.getD c 0, sb + m.bigramLogProb.getD (prev * 27 + c) 0) c rest

/-- `scoreText`: normalize the candidate; an empty normalization scores
`Number.NEGATIVE_INFINITY` (the bottom element of `EReal`); otherwise
return `scoreUnigram + lambdaBigram * scoreBigram` accumulated over the
normalized text. -/
noncomputable def scoreText (textRaw : String) (m : LanguageModel) : EReal :=
  let text := normalizeEnglish textRaw
  if text.length = 0 then ⊥
  else
    match text.data.map alphIndex with
    | [] => ⊥
    | c :: rest =>
      let p := scoreAux m (m.unigramLogProb.getD c 0, 0) c rest
      ((p.1 + m.lambdaBigram * p.2 : ℝ) : EReal)

/-- `createIdentityKey`: the key mapping each index to itself. -/
def createIdentityKey : List ℕ := List.range 27

/-- In-place pairwise swap of two positions of a key (`Int16Array`
modeled as a list; reads happen before both writes, as in the source). -/
def swapKey (l : List ℕ) (i j : ℕ) : List ℕ :=
  let a := l.getD i 0
  let b := l.getD j 0
  (l.set i b).set j a

/-- The descending loop indices `26, 25, ..., 1` of the Fisher-Yates
shuffle in `createRandomKey`. -/
def fisherIndices : List ℕ := (List.range 26).map (fun t => 26 - t)

/-- `createRandomKey`: Fisher-Yates shuffle of the identity key.  The
draw `Math.floor(Math.random() * (i + 1))`, a uniform value in
`[0, i]`, is modeled as `r i % (i + 1)` for a supplied stream `r`. -/
def createRandomKey (r : ℕ → ℕ) : List ℕ :=
  fisherIndices.foldl (fun key i => swapKey key i (r i % (i + 1))) createIdentityKey

/-- `countFrequencies`: occurrence count of each alphabet index in the
normalized ciphertext (the counting loop expressed as `List.count`). -/
def countFrequencies (normalized : String) (i : ℕ) : ℕ :=
  (normalized.data.map alphIndex).count i

/-- Target English frequency order used by `buildFrequencyInitialKey`. -/
def targetFreqOrder : String := " ETAONRISHDLFCMUGYPWBVKJXQZ"

/-- The `(index, count)` pairs of `buildFrequencyInitialKey`, sorted by
descending count.  The JavaScript comparator `b.count - a.count` is the
stable descending sort `le a b := b.count ≤ a.count`. -/
def freqSortedPairs (cipherNormalized : String) : List (ℕ × ℕ) :=
  ((List.range 27).map fun i => (i, countFrequencies cipherNormalized i)).mergeSort
    (fun a b => b.2 ≤ a.2)

/-- The assignment loop of `buildFrequencyInitialKey`:
`key[pairs[rank].idx] := targetIdxs[rank]` for each rank in order,
starting from the zero-initialized `Int16Array`. -/
def scatterKey (base : List ℕ) : List (ℕ × ℕ) → List ℕ
| [] => base
| (p, v) :: rest => scatterKey (base.set p v) rest

/-- `buildFrequencyInitialKey`: map the rank-r most frequent ciphertext
index to the index of the rank-r character of the target frequency
order. -/
def buildFrequencyInitialKey (cipherNormalized : String) : List ℕ :=
  scatterKey (List.replicate 27 0)
    ((freqSortedPairs cipherNormalized).map Prod.fst |>.zip
      (targetFreqOrder.data.map alphIndex))

/-- `applySubstitutionToNormalized`: decode each character through
`indexToChar[key[charToIndex[char]]]`.  Out-of-alphabet characters
(whose lookups are `undefined` in the source and unreachable on
normalized input) fall back to defaults. -/
def applySubstitutionToNormalized (cipherNormalized : String) (key : List ℕ) : String :=
  String.mk
    (cipherNormalized.data.map fun c => alphabetChars.getD (key.getD (alphIndex c) 0) ' ')

/-- The inverse of a permutation key, as used by the round-trip
property of the specification: position `p` holds the index that the
key sends to `p`. -/
def inverseKey (key : List ℕ) : List ℕ := (List.range 27).map fun p => idxOf p key

/-- `keyToMapping`: human-readable cipher-character to plain-character
view of a key. -/
def keyToMapping (key : List ℕ) : List (Char × Char) :=
  (List.range 27).map fun cipherIdx =>
    (alphabetChars.getD cipherIdx ' ', alphabetChars.getD (key.getD cipherIdx 0) ' ')

/-- The mutable state of one hill-climbing restart: current key,
decoded text and score, plus the best triple found so far. -/
structure ClimbState where
  currentKey : List ℕ
  currentPlain : String
  currentScore : EReal
  bestKey : List ℕ
  bestPlain : String
  bestScore : EReal

/-- Result of one hill-climbing restart. -/
structure RestartResult where
  key : List ℕ
  plaintext : String
  score : EReal

/-- One iteration of `hillClimbSubstitution`: swap the two given
positions of the current key, decode and score the neighbor, accept it
only on a strictly better score, and update the best-so-far when the
accepted score also beats it. -/
noncomputable def climbStep (cipherNormalized : String) (m : LanguageModel)
    (s : ClimbState) (ij : ℕ × ℕ) : ClimbState :=
  let neighborKey := swapKey s.currentKey ij.1 ij.2
  let neighborPlain := applySubstitutionToNormalized cipherNormalized neighborKey
  let neighborScore := scoreText neighborPlain m
  if s.currentScore < neighborScore then
    if s.bestScore < neighborScore then
      ⟨neighborKey, neighborPlain, neighborScore, neighborKey, neighborPlain, neighborScore⟩
    else
      ⟨neighborKey, neighborPlain, neighborScore, s.bestKey, s.bestPlain, s.bestScore⟩
  else s

/-- `hillClimbSubstitution`: start from the initial key, run one
`climbStep` per supplied random pair (the iteration budget
`maxIterations` is the length of the supplied stream of draws), and
report the best key, text and score found. -/
noncomputable def hillClimbSubstitution (cipherNormalized : String) (m : LanguageModel)
    (initialKey : List ℕ) (choices : List (ℕ × ℕ)) : RestartResult :=
  let currentPlain := applySubstitutionToNormalized cipherNormalized initialKey
  let currentScore := scoreText currentPlain m
  let final :=
    choices.foldl (climbStep cipherNormalized m)
      ⟨initialKey, currentPlain, currentScore, initialKey, currentPlain, currentScore⟩
  ⟨final.bestKey, final.bestPlain, final.bestScore⟩

/-- Score of the tracked global best: `Number.NEGATIVE_INFINITY` while
`globalBestKey` is still `null`. -/
def optScore : Option RestartResult → EReal
| none => ⊥
| some b => b.score

/-- The global-best update of the restart loop: replace the tracked
best exactly when the new score is strictly greater. -/
noncomputable def selectBest (rs : List RestartResult) : Option RestartResult :=
  rs.foldl (fun acc res => if optScore acc < res.score then some res else acc) none

/-- The per-restart results of `breakSubstitutionCipher`: restart 0
uses the frequency-based initial key when `useFrequencyInit` is set,
every other restart a random key; `rnd` supplies each restart with its
shuffle stream and its list of swap draws. -/
noncomputable def restartResults (cipherNormalized : String) (m : LanguageModel)
    (restarts : ℕ) (useFrequencyInit : Bool) (rnd : ℕ → (ℕ → ℕ) × List (ℕ × ℕ)) :
    List RestartResult :=
  (List.range restarts).map fun r =>
    let initialKey :=
      if r = 0 ∧ useFrequencyInit then buildFrequencyInitialKey cipherNormalized
      else createRandomKey (rnd r).1
    hillClimbSubstitution cipherNormalized m initialKey (rnd r).2

/-- Final result record of `breakSubstitutionCipher`. -/
structure BreakSubstitutionResult where
  plaintext : String
  key : List ℕ
  mapping : List (Char × Char)
  score : EReal

/-- `breakSubstitutionCipher`: normalize the ciphertext, fail with
`EmptyCiphertext` when nothing remains, run the hill-climbing restarts,
keep the global best by strictly-greater score, and fail with the
internal `No solution found` error when the best key is still null. -/
noncomputable def breakSubstitutionCipher (ciphertextRaw : String) (m : LanguageModel)
    (restarts : ℕ) (useFrequencyInit : Bool) (rnd : ℕ → (ℕ → ℕ) × List (ℕ × ℕ)) :
    Except BreakError BreakSubstitutionResult :=
  let cipherNormalized := normalizeEnglish ciphertextRaw
  if cipherNormalized.length = 0 then .error .emptyCiphertext
  else
    match selectBest (restartResults cipherNormalized m restarts useFrequencyInit rnd) with
    | none => .error .noSolutionFound
    | some best => .ok ⟨best.plaintext, best.key, keyToMapping best.key, best.score⟩

/-- A concrete language model used to instantiate theorems on concrete
inputs. -/
def M0 : LanguageModel :=
  ⟨List.replicate 27 (0 : ℝ), List.replicate 729 (0 : ℝ), (0.7 : ℝ)⟩

/-- A trivial randomness supply: every restart shuffles with the zero
stream and receives an empty list of swap draws. -/
def rnd0 : ℕ → (ℕ → ℕ) × List (ℕ × ℕ) := fun _ => (fun _ => 0, [])

/-- A concrete hill-climbing state used to instantiate theorems. -/
def S0 : ClimbState := ⟨createIdentityKey, "A", ⊥, createIdentityKey, "A", ⊥⟩

/-- Every character kept by the normalizer loop belongs to the
alphabet. -/
lemma normalizeLoop_subset : ∀ (l : List Char) (b : Bool),
    ∀ c ∈ normalizeLoop l b, c ∈ alphabetChars := by
  intro l
  induction l with
  | nil => intro b c hc; simp [normalizeLoop] at hc
  | cons c rest ih =>
    intro b d hd
    by_cases hin : inAlphabet c
    · by_cases hsp : c = ' '
      · subst hsp
        cases b with
        | true =>
          simp only [normalizeLoop, hin, if_true, if_pos rfl] at hd
          exact ih true d hd
        | false =>
          simp only [normalizeLoop, hin, if_true, if_pos rfl, if_neg Bool.false_ne_true] at hd
          rcases List.mem_cons.mp hd with h | h
          · subst h; decide
          · exact ih true d h
      · simp only [normalizeLoop, hin, if_true, if_neg hsp] at hd
        rcases List.mem_cons.mp hd with h | h
        · subst h; exact List.mem_of_elem_eq_true (by simpa [inAlphabet] using hin)
        · exact ih false d h
    · simp only [normalizeLoop, hin, if_false] at hd
      exact ih b d hd

/-- The normalizer loop never emits two consecutive spaces, and its
output starts with a space only when the incoming flag was `false`. -/
lemma normalizeLoop_chain : ∀ (l : List Char) (b : Bool),
    List.Chain' (fun a c => a ≠ ' ' ∨ c ≠ ' ') (normalizeLoop l b) ∧
      ((normalizeLoop l b).head? = some ' ' → b = false) := by
  intro l
  induction l with
  | nil => intro b; constructor
           · simp [normalizeLoop]
           · intro h; simp [normalizeLoop] at h
  | cons c rest ih =>
    intro b
    by_cases hin : inAlphabet c
    · by_cases hsp : c = ' '
      · subst hsp
        cases b with
        | true =>
          simp only [normalizeLoop, hin, if_true, if_pos rfl]
          refine ⟨(ih true).1, fun h => ?_⟩
          exact absurd ((ih true).2 h) (by simp)
        | false =>
          simp only [normalizeLoop, hin, if_true, if_pos rfl, if_neg Bool.false_ne_true]
          refine ⟨?_, fun _ => by trivial⟩
          rw [List.chain'_cons']
          refine ⟨fun y hy => Or.inr fun hy' => ?_, (ih true).1⟩
          subst hy'
          have := (ih true).2 (by simpa using hy)
          simp at this
      · simp only [normalizeLoop, hin, if_true, if_neg hsp]
        refine ⟨?_, fun h => absurd (by simpa using h) hsp⟩
        rw [List.chain'_cons']
        exact ⟨fun y _ => Or.inl hsp, (ih false).1⟩
    · simp only [normalizeLoop, hin, if_false]
      exact ih b

/-- The trimmed list is an infix of the original list. -/
lemma trimChars_infixOf (l : List Char) : trimChars l <:+: l := by
  have h1 : l.dropWhile (· == ' ') <:+ l := List.dropWhile_suffix _
  have h2 : trimChars l <+: l.dropWhile (· == ' ') := by
    rw [← List.reverse_suffix]
    simpa [trimChars] using List.dropWhile_suffix (l := (l.dropWhile (· == ' ')).reverse) (· == ' ')
  rcases h1 with ⟨s, hs⟩
  rcases h2 with ⟨t, ht⟩
  exact ⟨s, t, by rw [List.append_assoc, ht, hs]⟩

/-- `dropWhile` output never starts with an element satisfying the
predicate. -/
lemma head?_dropWhile_ne (p : α → Bool) (l : List α) (a : α) (pa : p a = true) :
    (l.dropWhile p).head? ≠ some a := by
  intro h
  have hh := List.head?_dropWhile_not p l
  rw [h] at hh
  rw [hh] at pa
  exact Bool.false_ne_true pa

/-- The first character of the trimmed list is not a space. -/
lemma trimChars_head (l : List Char) : (trimChars l).head? ≠ some ' ' := by
  have h2 : trimChars l <+: l.dropWhile (· == ' ') := by
    rw [← List.reverse_suffix]
    simpa [trimChars] using List.dropWhile_suffix (l := (l.dropWhile (· == ' ')).reverse) (· == ' ')
  cases hc : trimChars l with
  | nil => simp
  | cons a t =>
    rw [hc] at h2
    rcases h2 with ⟨u, hu⟩
    intro h
    have ha : a = ' ' := by simpa using h
    subst ha
    exact head?_dropWhile_ne (· == ' ') l ' ' (by decide) (by rw [← hu]; rfl)

/-- The last character of the trimmed list is not a space. -/
lemma trimChars_last (l : List Char) : (trimChars l).getLast? ≠ some ' ' := by
  have : (trimChars l).getLast? = ((l.dropWhile (· == ' ')).reverse.dropWhile (· == ' ')).head? := by
    rw [trimChars, List.getLast?_reverse]
  rw [this]
  exact head?_dropWhile_ne (· == ' ') _ ' ' (by decide)

/-- C7: for every input string, the output of `normalizeEnglish`
contains only characters of the 27-symbol alphabet, never has two
consecutive spaces, has no leading or trailing space, and the empty
input yields the empty output (the function is total, so it never
fails). -/
theorem normalizeEnglish_invariants (s : String) :
    (∀ c ∈ (normalizeEnglish s).data, c ∈ ALPHABET.data) ∧
      List.Chain' (fun a c => ¬(a = ' ' ∧ c = ' ')) (normalizeEnglish s).data ∧
      (normalizeEnglish s).data.head? ≠ some ' ' ∧
      (normalizeEnglish s).data.getLast? ≠ some ' ' ∧
      normalizeEnglish ("") = "" := by
  have hdata :
      (normalizeEnglish s).data =
        trimChars
          (normalizeLoop
            (((replaceCtlRuns s.data).map replacePunct).map Char.toUpper) true) := rfl
  set L := normalizeLoop (((replaceCtlRuns s.data).map replacePunct).map Char.toUpper) true with hL
  have hinf : trimChars L <:+: L := trimChars_infixOf L
  refine ⟨?_, ?_, ?_, ?_, rfl⟩
  · intro c hc
    rw [hdata] at hc
    exact normalizeLoop_subset _ true c (List.IsInfix.subset hinf hc)
  · rw [hdata]
    have hch := List.Chain'.infix ((normalizeLoop_chain
      (((replaceCtlRuns s.data).map replacePunct).map Char.toUpper) true).1) hinf
    exact hch.imp fun a c h => fun hac => by
      rcases h with h | h
      · exact h hac.1
      · exact h hac.2
  · rw [hdata]; exact trimChars_head L
  · rw [hdata]; exact trimChars_last L


/-- C5: `buildLanguageModel` fails with `InsufficientCorpus` exactly
when the normalized corpus is shorter than 2 characters, and
`breakSubstitutionCipher` fails with `EmptyCiphertext` exactly when the
normalized ciphertext is empty.  Both checks are the first step of the
respective operation, and a failure produces an `Except.error`, never a
result. -/
theorem precondition_errors :
    (∀ (c : String) (k lb : ℝ),
        buildLanguageModel c k lb = .error .insufficientCorpus ↔
          (normalizeEnglish c).length < 2) ∧
      (∀ (ct : String) (m : LanguageModel) (n : ℕ) (ui : Bool)
          (rnd : ℕ → (ℕ → ℕ) × List (ℕ × ℕ)),
        breakSubstitutionCipher ct m n ui rnd = .error .emptyCiphertext ↔
          (normalizeEnglish ct).length = 0) := by
  constructor
  · intro c k lb
    simp only [buildLanguageModel]
    split
    · exact iff_of_true rfl (by assumption)
    · constructor
      · intro h; cases h
      · intro h; omega
  · intro ct m n ui rnd
    simp only [breakSubstitutionCipher]
    split
    · exact iff_of_true rfl (by assumption)
    · constructor
      · intro h
        split at h
        · cases h
        · cases h
      · intro h; omega

/-- C10: with `restarts = 0` and a non-empty normalized ciphertext,
`breakSubstitutionCipher` never returns a result: the restart loop body
does not run, the global best stays null, and the internal
`No solution found` error is thrown; conversely a returned result
implies `restarts ≥ 1`. -/
theorem breakSubstitutionCipher_restarts_zero :
    (∀ (ct : String) (m : LanguageModel) (ui : Bool)
        (rnd : ℕ → (ℕ → ℕ) × List (ℕ × ℕ)),
      (normalizeEnglish ct).length ≠ 0 →
        breakSubstitutionCipher ct m 0 ui rnd = .error .noSolutionFound) ∧
      (∀ (ct : String) (m : LanguageModel) (n : ℕ) (ui : Bool)
          (rnd : ℕ → (ℕ → ℕ) × List (ℕ × ℕ)) (res : BreakSubstitutionResult),
        breakSubstitutionCipher ct m n ui rnd = .ok res → 1 ≤ n) := by
  have hzero : ∀ (ct : String) (m : LanguageModel) (ui : Bool)
      (rnd : ℕ → (ℕ → ℕ) × List (ℕ × ℕ)),
      (normalizeEnglish ct).length ≠ 0 →
        breakSubstitutionCipher ct m 0 ui rnd = .error .noSolutionFound := by
    intro ct m ui rnd hne
    simp only [breakSubstitutionCipher]
    rw [if_neg hne]
    have : restartResults (normalizeEnglish ct) m 0 ui rnd = [] := by
      simp [restartResults]
    rw [this]
    rfl
  refine ⟨hzero, ?_⟩
  intro ct m n ui rnd res h
  by_contra hn
  have hn0 : n = 0 := by omega
  subst hn0
  by_cases hne : (normalizeEnglish ct).length = 0
  · simp only [breakSubstitutionCipher] at h
    rw [if_pos hne] at h
    cases h
  · rw [hzero ct m ui rnd hne] at h
    cases h

/-- Witness for C10 at a concrete input: ciphertext `"A"` normalizes to
the non-empty `"A"`, and zero restarts produce the internal error. -/
theorem breakSubstitutionCipher_restarts_zero_witness :
    (normalizeEnglish ("A")).length ≠ 0 ∧
      breakSubstitutionCipher ("A") M0 0 true rnd0 = .error .noSolutionFound :=
  ⟨by decide, breakSubstitutionCipher_restarts_zero.1 "A" M0 true rnd0 (by decide)⟩

/-- The unigram counter after the counting loop adds the number of
occurrences in the remaining input to the accumulator. -/
lemma passAux_uni : ∀ (l : List ℕ) (uni : ℕ → ℕ) (bi : ℕ → ℕ → ℕ) (row : ℕ → ℕ)
    (prev x : ℕ), (passAux uni bi row prev l).uni x = uni x + l.count x := by
  intro l
  induction l with
  | nil => intro uni bi row prev x; simp [passAux]
  | cons c rest ih =>
    intro uni bi row prev x
    rw [passAux, ih, List.count_cons]
    simp only [bump]
    by_cases h : x = c
    · subst h; simp; omega
    · simp only [if_neg h, List.count_cons]
      have hxc : ((x == c) = false) := by simpa using h
      simp [hxc]
      exact fun hc => h hc.symm

/-- The bigram counter after the counting loop adds the number of
adjacent occurrences of the pair, the previous character included. -/
lemma passAux_bi : ∀ (l : List ℕ) (uni : ℕ → ℕ) (bi : ℕ → ℕ → ℕ) (row : ℕ → ℕ)
    (prev p s : ℕ),
    (passAux uni bi row prev l).bi p s = bi p s + ((prev :: l).zip l).count (p, s) := by
  intro l
  induction l with
  | nil => intro uni bi row prev p s; simp [passAux]
  | cons c rest ih =>
    intro uni bi row prev p s
    rw [passAux, ih]
    simp only [List.zip_cons_cons, List.count_cons]
    by_cases h : p = prev ∧ s = c
    · rcases h with ⟨h1, h2⟩; subst h1; subst h2; simp; omega
    · have hne : ¬ ((p, s) = (prev, c)) := by
        intro hc
        exact h ⟨congrArg Prod.fst hc, congrArg Prod.snd hc⟩
      simp only [if_neg h, List.count_cons]
      simp [hne]
      intro h1 h2
      exact h ⟨h1.symm, h2.symm⟩

/-- The row-total counter after the counting loop adds the number of
bigrams starting with the given character. -/
lemma passAux_row : ∀ (l : List ℕ) (uni : ℕ → ℕ) (bi : ℕ → ℕ → ℕ) (row : ℕ → ℕ)
    (prev p : ℕ),
    (passAux uni bi row prev l).row p =
      row p + ((prev :: l).zip l).countP (fun q => q.1 == p) := by
  intro l
  induction l with
  | nil => intro uni bi row prev p; simp [passAux]
  | cons c rest ih =>
    intro uni bi row prev p
    rw [passAux, ih]
    simp only [List.zip_cons_cons, List.countP_cons]
    simp only [bump]
    by_cases h : p = prev
    · subst h; simp; omega
    · simp only [if_neg h]
      have h2 : ((prev == p) = false) := by simpa using fun hc : prev = p => h hc.symm
      simp [h2]

/-- The counting pass computes exactly the occurrence counts of the
input. -/
lemma countPass_uni (l : List ℕ) (x : ℕ) : (countPass l).uni x = l.count x := by
  cases l with
  | nil => simp [countPass]
  | cons c rest =>
    rw [countPass, passAux_uni, List.count_cons]
    simp only [bump]
    by_cases h : x = c
    · subst h; simp; omega
    · have hxc : ((x == c) = false) := by simpa using h
      simp [h, hxc]
      exact fun hc => h hc.symm

/-- The counting pass computes exactly the adjacent-pair counts of the
input. -/
lemma countPass_bi (l : List ℕ) (p s : ℕ) :
    (countPass l).bi p s = (l.zip l.tail).count (p, s) := by
  cases l with
  | nil => simp [countPass]
  | cons c rest => rw [countPass, passAux_bi]; simp

/-- The counting pass computes exactly the number of bigrams starting
with each character. -/
lemma countPass_row (l : List ℕ) (p : ℕ) :
    (countPass l).row p = (l.zip l.tail).countP (fun q => q.1 == p) := by
  cases l with
  | nil => simp [countPass]
  | cons c rest => rw [countPass, passAux_row]; simp

/-- Entry lookup in a table built by mapping over `List.range`. -/
lemma getD_map_range {α : Type} (n : ℕ) (f : ℕ → α) (d : α) (i : ℕ) (h : i < n) :
    ((List.range n).map f).getD i d = f i := by
  simp [List.getD_eq_getElem?_getD, List.getElem?_map, List.getElem?_range, h]

/-- C1: for a corpus whose normalization has length at least 2 and any
smoothing constant and bigram weight, `buildLanguageModel` succeeds and
its unigram entry for symbol `i` is `log((count[i] + k) / (N + k*27))`
with `count[i]` the number of occurrences of `i` in the normalized
corpus, while its bigram entry for the pair `(p, s)` is
`log((count[p,s] + k) / (rowTotal[p] + k*27))` with `count[p,s]` the
number of adjacent occurrences of `p` followed by `s` and `rowTotal[p]`
the number of bigrams starting with `p`; the counts are produced by the
single left-to-right counting pass of the implementation. -/
theorem buildLanguageModel_formula (corpusRaw : String) (k lb : ℝ)
    (h : 2 ≤ (normalizeEnglish corpusRaw).length) :
    ∃ m : LanguageModel,
      buildLanguageModel corpusRaw k lb = .ok m ∧
        m.lambdaBigram = lb ∧
        (∀ i, i < 27 →
          m.unigramLogProb.getD i 0 =
            Real.log
              (((((normalizeEnglish corpusRaw).data.map alphIndex).count i : ℝ) + k) /
                (((normalizeEnglish corpusRaw).length : ℝ) + k * 27))) ∧
        (∀ p s, p < 27 → s < 27 →
          m.bigramLogProb.getD (p * 27 + s) 0 =
            Real.log
              ((((((normalizeEnglish corpusRaw).data.map alphIndex).zip
                    ((normalizeEnglish corpusRaw).data.map alphIndex).tail).count (p, s) : ℝ) + k) /
                (((((normalizeEnglish corpusRaw).data.map alphIndex).zip
                    ((normalizeEnglish corpusRaw).data.map alphIndex).tail).countP
                      (fun q => q.1 == p) : ℝ) + k * 27))) := by
  have hnotlt : ¬ (normalizeEnglish corpusRaw).length < 2 := not_lt.mpr h
  refine
    ⟨⟨(List.range 27).map fun i =>
          Real.log
            (smoothedUnigramProb ((normalizeEnglish corpusRaw).data.map alphIndex)
              (normalizeEnglish corpusRaw).length k i),
        (List.range (27 * 27)).map fun n =>
          Real.log
            (smoothedBigramProb ((normalizeEnglish corpusRaw).data.map alphIndex) k
              (n / 27) (n % 27)),
        lb⟩, ?_, rfl, ?_, ?_⟩
  · simp only [buildLanguageModel]
    rw [if_neg hnotlt]
  · intro i hi
    simp only
    rw [getD_map_range 27 _ 0 i hi]
    rw [smoothedUnigramProb, countPass_uni]
  · intro p s hp hs
    simp only
    rw [getD_map_range (27 * 27) _ 0 (p * 27 + s) (by omega)]
    rw [smoothedBigramProb, countPass_bi, countPass_row]
    have hdiv : (p * 27 + s) / 27 = p := by
      rw [Nat.add_comm, Nat.add_mul_div_right _ _ (by omega : 0 < 27), Nat.div_eq_of_lt hs]
      omega
    have hmod : (p * 27 + s) % 27 = s := by
      rw [Nat.add_comm, Nat.add_mul_mod_self_right, Nat.mod_eq_of_lt hs]
    rw [hdiv, hmod]

/-- Witness for C1 at the concrete corpus `"AB"` (normalized length 2)
with the default options. -/
theorem buildLanguageModel_formula_witness :
    2 ≤ (normalizeEnglish ("AB")).length ∧
      ∃ m : LanguageModel,
        buildLanguageModel ("AB") 1 0.7 = .ok m ∧ m.lambdaBigram = 0.7 := by
  refine ⟨by decide, ?_⟩
  obtain ⟨m, h1, h2, _, _⟩ := buildLanguageModel_formula ("AB") 1 0.7 (by decide)
  exact ⟨m, h1, h2⟩

/-- The scoring loop returns the accumulated unigram sum and bigram
sum over the remaining input, the previous character included in the
bigram pairs. -/
lemma scoreAux_spec : ∀ (l : List ℕ) (m : LanguageModel) (su sb : ℝ) (prev : ℕ),
    scoreAux m (su, sb) prev l =
      (su + ((l.map fun i => m.unigramLogProb.getD i 0).sum),
        sb + ((((prev :: l).zip l).map fun q => m.bigramLogProb.getD (q.1 * 27 + q.2) 0).sum)) := by
  intro l
  induction l with
  | nil => intro m su sb prev; simp [scoreAux]
  | cons c rest ih =>
    intro m su sb prev
    rw [scoreAux, ih]
    simp [add_assoc]

/-- C2: `scoreText` returns bottom (negative infinity) exactly on an
empty normalization, and otherwise the sum of the unigram
log-probabilities over all positions plus the bigram weight times the
sum of the bigram log-probabilities over all adjacent pairs of the
normalized candidate. -/
theorem scoreText_formula (textRaw : String) (m : LanguageModel) :
    scoreText textRaw m =
      if (normalizeEnglish textRaw).length = 0 then (⊥ : EReal)
      else
        (((((normalizeEnglish textRaw).data.map alphIndex).map
              (fun i => m.unigramLogProb.getD i 0)).sum +
            m.lambdaBigram *
              (((((normalizeEnglish textRaw).data.map alphIndex).zip
                    ((normalizeEnglish textRaw).data.map alphIndex).tail).map
                  (fun q => m.bigramLogProb.getD (q.1 * 27 + q.2) 0)).sum) : ℝ) : EReal) := by
  by_cases h : (normalizeEnglish textRaw).length = 0
  · rw [if_pos h]
    simp only [scoreText]
    rw [if_pos h]
  · rw [if_neg h]
    simp only [scoreText]
    rw [if_neg h]
    have hdata : (normalizeEnglish textRaw).data ≠ [] := by
      intro hd
      exact h (by simp [String.length, hd])
    cases hidx : (normalizeEnglish textRaw).data with
    | nil => exact absurd hidx hdata
    | cons c rest =>
      simp only [List.map_cons, List.tail_cons]
      rw [scoreAux_spec]
      simp [add_assoc]

/-- `idxOf` of a member is a valid index. -/
lemma idxOf_lt_length {α : Type} [DecidableEq α] {a : α} :
    ∀ {l : List α}, a ∈ l → idxOf a l < l.length := by
  intro l
  induction l with
  | nil => intro h; cases h
  | cons c rest ih =>
    intro h
    by_cases hac : a = c
    · simp [idxOf, hac]
    · rcases List.mem_cons.mp h with h1 | h1
      · exact absurd h1 hac
      · simpa [idxOf, hac, Nat.succ_lt_succ_iff] using ih h1

/-- Looking up the index returned by `idxOf` recovers the element. -/
lemma getD_idxOf {α : Type} [DecidableEq α] {a : α} (d : α) :
    ∀ {l : List α}, a ∈ l → l.getD (idxOf a l) d = a := by
  intro l
  induction l with
  | nil => intro h; cases h
  | cons c rest ih =>
    intro h
    by_cases hac : a = c
    · simp [idxOf, hac]
    · rcases List.mem_cons.mp h with h1 | h1
      · exact absurd h1 hac
      · simpa [idxOf, hac] using ih h1

/-- An in-range `getD` is a member of the list. -/
lemma getD_mem {α : Type} {l : List α} {i : ℕ} (d : α) (h : i < l.length) :
    l.getD i d ∈ l := by
  rw [List.getD_eq_getElem?_getD, List.getElem?_eq_getElem h]
  exact List.getElem_mem h

/-- On a duplicate-free list, `idxOf` inverts indexing. -/
lemma idxOf_getD {α : Type} [DecidableEq α] (d : α) :
    ∀ (l : List α), l.Nodup → ∀ i, i < l.length → idxOf (l.getD i d) l = i := by
  intro l
  induction l with
  | nil => intro _ i hi; simp at hi
  | cons c rest ih =>
    intro hnd i hi
    cases i with
    | zero => simp [idxOf]
    | succ n =>
      have hn : n < rest.length := by simpa [Nat.succ_lt_succ_iff] using hi
      have hmem : rest.getD n d ∈ rest := getD_mem d hn
      have hne : rest.getD n d ≠ c := by
        intro he
        exact (List.nodup_cons.mp hnd).1 (he ▸ hmem)
      simp only [List.getD_cons_succ, idxOf, if_neg hne]
      rw [ih (List.nodup_cons.mp hnd).2 n hn]

/-- Moving the element at a valid position to the front while writing a
new value there is a permutation-preserving exchange. -/
lemma getD_cons_set_perm :
    ∀ (t : List ℕ) (k : ℕ) (a : ℕ), k < t.length →
      t.getD k 0 :: t.set k a ~ a :: t := by
  intro t
  induction t with
  | nil => intro k a hk; simp at hk
  | cons c t2 ih =>
    intro k a hk
    cases k with
    | zero => simpa using List.Perm.swap a c t2
    | succ k2 =>
      have hk2 : k2 < t2.length := by simpa [Nat.succ_lt_succ_iff] using hk
      simp only [List.getD_cons_succ, List.set_cons_succ]
      calc t2.getD k2 0 :: c :: t2.set k2 a
          ~ c :: t2.getD k2 0 :: t2.set k2 a := List.Perm.swap c (t2.getD k2 0) _
        _ ~ c :: a :: t2 := (ih k2 a hk2).cons c
        _ ~ a :: c :: t2 := List.Perm.swap a c t2

/-- Swapping two valid positions of a list yields a permutation of it
(case of distinct ordered positions). -/
lemma swapKey_perm_lt :
    ∀ (l : List ℕ) (i j : ℕ), i < j → j < l.length → swapKey l i j ~ l := by
  intro l
  induction l with
  | nil => intro i j hij hj; simp at hj
  | cons c t ih =>
    intro i j hij hj
    cases i with
    | zero =>
      cases j with
      | zero => exact absurd hij (by omega)
      | succ k =>
        have hk : k < t.length := by simpa [Nat.succ_lt_succ_iff] using hj
        simp only [swapKey, List.getD_cons_zero, List.getD_cons_succ, List.set_cons_zero,
          List.set_cons_succ]
        exact getD_cons_set_perm t k c hk
    | succ m =>
      cases j with
      | zero => exact absurd hij (by omega)
      | succ n =>
        have hmn : m < n := by omega
        have hn : n < t.length := by simpa [Nat.succ_lt_succ_iff] using hj
        simp only [swapKey, List.getD_cons_succ, List.set_cons_succ]
        exact (ih m n hmn hn).cons c

/-- Swapping any two valid positions of a list yields a permutation of
it. -/
lemma swapKey_perm (l : List ℕ) (i j : ℕ) (hi : i < l.length) (hj : j < l.length) :
    swapKey l i j ~ l := by
  rcases Nat.lt_trichotomy i j with h | h | h
  · exact swapKey_perm_lt l i j h hj
  · subst h
    have : swapKey l i i = l := by
      apply List.ext_getElem
      · simp [swapKey]
      · intro n h1 h2
        simp only [swapKey]
        by_cases hn : n = i
        · subst hn
          rw [List.getElem_set_self, List.getD_eq_getElem?_getD, List.getElem?_eq_getElem hi]
          rfl
        · rw [List.getElem_set_ne (fun he => hn he.symm), List.getElem_set_ne (fun he => hn he.symm)]
    rw [this]
  · have heq : swapKey l i j = swapKey l j i := by
      simp only [swapKey]
      exact List.set_comm _ _ l (by omega)
    rw [heq]
    exact swapKey_perm_lt l j i h hi

/-- The assignment loop preserves the length of the key. -/
lemma scatterKey_length : ∀ (ps : List (ℕ × ℕ)) (base : List ℕ),
    (scatterKey base ps).length = base.length := by
  intro ps
  induction ps with
  | nil => intro base; rfl
  | cons pv rest ih =>
    intro base
    rw [scatterKey, ih]
    simp

/-- Entry of the key built by the assignment loop: a position listed in
`ps` holds the value of the matching rank, any other position keeps its
initial value. -/
lemma scatterKey_getD :
    ∀ (ps vs base : List ℕ) (q : ℕ), ps.Nodup → ps.length = vs.length →
      (∀ x ∈ ps, x < base.length) →
      (scatterKey base (ps.zip vs)).getD q 0 =
        if q ∈ ps then vs.getD (idxOf q ps) 0 else base.getD q 0 := by
  intro ps
  induction ps with
  | nil => intro vs base q _ _ _; simp [scatterKey]
  | cons p ps2 ih =>
    intro vs base q hnd hlen hbound
    cases vs with
    | nil => simp at hlen
    | cons v vs2 =>
      simp only [List.zip_cons_cons, scatterKey]
      rw [show List.zipWith Prod.mk ps2 vs2 = ps2.zip vs2 from rfl]
      rw [ih vs2 (base.set p v) q (List.nodup_cons.mp hnd).2 (by simpa using hlen)
        (fun x hx => by simpa using hbound x (List.mem_cons_of_mem _ hx))]
      by_cases hq2 : q ∈ ps2
      · have hqp : q ≠ p := fun he => (List.nodup_cons.mp hnd).1 (he ▸ hq2)
        rw [if_pos hq2, if_pos (List.mem_cons_of_mem _ hq2)]
        simp [idxOf, hqp]
      · by_cases hqp : q = p
        · subst hqp
          rw [if_neg hq2, if_pos (List.mem_cons_self _ _)]
          have hqlt : q < base.length := hbound q (List.mem_cons_self _ _)
          simp only [idxOf, if_pos rfl, List.getD_cons_zero]
          rw [List.getD_eq_getElem?_getD, List.getElem?_set_self hqlt]
          rfl
        · rw [if_neg hq2, if_neg (by simp [hqp, hq2])]
          rw [List.getD_eq_getElem?_getD, List.getElem?_set_ne (fun he => hqp he.symm),
            List.getD_eq_getElem?_getD]

/-- When the listed positions cover every index of the base key exactly
once, the assignment loop produces a rearrangement of the assigned
values. -/
lemma scatterKey_perm (ps vs base : List ℕ) (hnd : ps.Nodup) (hlen : ps.length = vs.length)
    (hcover : ps ~ List.range base.length) : scatterKey base (ps.zip vs) ~ vs := by
  have hbound : ∀ x ∈ ps, x < base.length := fun x hx =>
    List.mem_range.mp (hcover.mem_iff.mp hx)
  have hps_len : ps.length = base.length := by simpa using hcover.length_eq
  have hrlen : (scatterKey base (ps.zip vs)).length = base.length := scatterKey_length _ _
  have hrec : scatterKey base (ps.zip vs) =
      (List.range base.length).map (fun q => (scatterKey base (ps.zip vs)).getD q 0) := by
    apply List.ext_getElem
    · simp [hrlen]
    · intro n h1 h2
      rw [List.getElem_map, List.getElem_range,
        List.getD_eq_getElem?_getD, List.getElem?_eq_getElem h1]
      rfl
  calc scatterKey base (ps.zip vs)
      = (List.range base.length).map (fun q => (scatterKey base (ps.zip vs)).getD q 0) := hrec
    _ = (List.range base.length).map (fun q => vs.getD (idxOf q ps) 0) := by
        apply List.map_congr_left
        intro q hq
        rw [scatterKey_getD ps vs base q hnd hlen hbound, if_pos (hcover.mem_iff.mpr hq)]
    _ ~ ps.map (fun q => vs.getD (idxOf q ps) 0) := (hcover.symm.map _)
    _ = vs := by
        apply List.ext_getElem
        · simp [hps_len, ← hlen]
        · intro n h1 h2
          rw [List.getElem_map]
          have hn : n < ps.length := by simpa using h1
          have hv : n < vs.length := by omega
          have hgd : ps.getD n 0 = ps[n] := by
            rw [List.getD_eq_getElem?_getD, List.getElem?_eq_getElem hn]; rfl
          rw [← hgd, idxOf_getD 0 ps hnd n hn,
            List.getD_eq_getElem?_getD, List.getElem?_eq_getElem hv]
          rfl

/-- Each Fisher-Yates step preserves being a permutation of the 27
indices. -/
lemma foldl_swapKey_perm (r : ℕ → ℕ) :
    ∀ (idxs : List ℕ) (key : List ℕ), key ~ List.range 27 → (∀ i ∈ idxs, i < 27) →
      idxs.foldl (fun k i => swapKey k i (r i % (i + 1))) key ~ List.range 27 := by
  intro idxs
  induction idxs with
  | nil => intro key hk _; simpa using hk
  | cons i rest ih =>
    intro key hk hb
    simp only [List.foldl_cons]
    apply ih
    · have hlen : key.length = 27 := by simpa using hk.length_eq
      have hi : i < key.length := by rw [hlen]; exact hb i (List.mem_cons_self _ _)
      have hj : r i % (i + 1) < key.length := by
        have h1 : r i % (i + 1) < i + 1 := Nat.mod_lt _ (Nat.succ_pos i)
        omega
      exact (swapKey_perm key i _ hi hj).trans hk
    · exact fun x hx => hb x (List.mem_cons_of_mem _ hx)

/-- C6: the identity key, every Fisher-Yates random key, every
frequency-seeded initial key and every pairwise swap of a permutation
key is a permutation of the 27 alphabet indices (its values are a
rearrangement of `0..26`). -/
theorem keys_are_permutations :
    createIdentityKey ~ List.range 27 ∧
      (∀ r : ℕ → ℕ, createRandomKey r ~ List.range 27) ∧
      (∀ s : String, buildFrequencyInitialKey s ~ List.range 27) ∧
      (∀ (l : List ℕ) (i j : ℕ), l ~ List.range 27 → i < 27 → j < 27 →
        swapKey l i j ~ List.range 27) := by
  refine ⟨List.Perm.refl _, ?_, ?_, ?_⟩
  · intro r
    exact foldl_swapKey_perm r fisherIndices createIdentityKey (List.Perm.refl _) (by decide)
  · intro s
    have hpairs : (freqSortedPairs s).map Prod.fst ~ List.range 27 := by
      have h1 : freqSortedPairs s ~ (List.range 27).map fun i => (i, countFrequencies s i) :=
        List.mergeSort_perm _ _
      have h2 := h1.map Prod.fst
      simpa [List.map_map, Function.comp] using h2
    have hnd : ((freqSortedPairs s).map Prod.fst).Nodup :=
      (hpairs.nodup_iff).mpr (List.nodup_range 27)
    have htlen : (targetFreqOrder.data.map alphIndex).length = 27 := by decide
    have hlen : ((freqSortedPairs s).map Prod.fst).length =
        (targetFreqOrder.data.map alphIndex).length := by
      rw [htlen]
      simpa using hpairs.length_eq
    rw [buildFrequencyInitialKey]
    have hperm := scatterKey_perm ((freqSortedPairs s).map Prod.fst)
      (targetFreqOrder.data.map alphIndex) (List.replicate 27 0) hnd hlen
      (by simpa using hpairs)
    exact hperm.trans (by decide : targetFreqOrder.data.map alphIndex ~ List.range 27)
  · intro l i j hl hi hj
    have hlen : l.length = 27 := by simpa using hl.length_eq
    exact (swapKey_perm l i j (by omega) (by omega)).trans hl

/-- Witness for C6 at concrete inputs: a concrete random stream, a
concrete ciphertext, and a concrete swap of the identity permutation. -/
theorem keys_are_permutations_witness :
    createRandomKey (fun n => n + 3) ~ List.range 27 ∧
      buildFrequencyInitialKey ("HELLO") ~ List.range 27 ∧
      ((List.range 27 : List ℕ) ~ List.range 27 ∧ (3 : ℕ) < 27 ∧ (5 : ℕ) < 27 ∧
        swapKey (List.range 27) 3 5 ~ List.range 27) :=
  ⟨keys_are_permutations.2.1 _, keys_are_permutations.2.2.1 _, List.Perm.refl _,
    by omega, by omega,
    keys_are_permutations.2.2.2 _ 3 5 (List.Perm.refl _) (by omega) (by omega)⟩

/-- C8: decoding a normalized text with a permutation key and then
decoding the result with the inverse permutation reproduces the text
exactly. -/
theorem decode_roundtrip (t : String) (key : List ℕ)
    (ht : ∀ c ∈ t.data, c ∈ ALPHABET.data) (hk : key ~ List.range 27) :
    applySubstitutionToNormalized (applySubstitutionToNormalized t key) (inverseKey key) = t := by
  have hklen : key.length = 27 := by simpa using hk.length_eq
  have hknd : key.Nodup := (hk.nodup_iff).mpr (List.nodup_range 27)
  have halph_nd : alphabetChars.Nodup := by decide
  have halph_len : alphabetChars.length = 27 := by decide
  have hpoint : ∀ c ∈ t.data,
      alphabetChars.getD
          ((inverseKey key).getD
            (alphIndex (alphabetChars.getD (key.getD (alphIndex c) 0) ' ')) 0) ' ' = c := by
    intro c hc
    have hca : c ∈ alphabetChars := ht c hc
    have hi : alphIndex c < 27 := by
      have h0 := idxOf_lt_length hca
      rwa [halph_len] at h0
    have hvmem : key.getD (alphIndex c) 0 ∈ key := getD_mem 0 (by omega)
    have hv : key.getD (alphIndex c) 0 < 27 := List.mem_range.mp (hk.mem_iff.mp hvmem)
    have h1 : alphIndex (alphabetChars.getD (key.getD (alphIndex c) 0) ' ') =
        key.getD (alphIndex c) 0 :=
      idxOf_getD ' ' alphabetChars halph_nd _ (by omega)
    rw [h1]
    have h2 : (inverseKey key).getD (key.getD (alphIndex c) 0) 0 =
        idxOf (key.getD (alphIndex c) 0) key := by
      rw [inverseKey]
      exact getD_map_range 27 _ 0 _ hv
    rw [h2]
    have h3 : idxOf (key.getD (alphIndex c) 0) key = alphIndex c :=
      idxOf_getD 0 key hknd _ (by omega)
    rw [h3]
    exact getD_idxOf ' ' hca
  cases t with
  | mk data =>
    have hdm : ∀ l : List Char, (String.mk l).data = l := fun l => rfl
    simp only [applySubstitutionToNormalized, hdm, List.map_map]
    apply congrArg String.mk
    have hmapped : data.map (fun c =>
        alphabetChars.getD
          ((inverseKey key).getD
            (alphIndex (alphabetChars.getD (key.getD (alphIndex c) 0) ' ')) 0) ' ') =
        data.map id := by
      apply List.map_congr_left
      intro c hc
      exact hpoint c hc
    simpa [Function.comp] using hmapped

/-- Witness for C8: the normalized text `"AB C"` under the identity
key. -/
theorem decode_roundtrip_witness :
    (∀ c ∈ ("AB C" : String).data, c ∈ ALPHABET.data) ∧
      createIdentityKey ~ List.range 27 ∧
      applySubstitutionToNormalized
          (applySubstitutionToNormalized ("AB C") createIdentityKey)
          (inverseKey createIdentityKey) = ("AB C") :=
  ⟨by decide, List.Perm.refl _,
    decode_roundtrip ("AB C") createIdentityKey (by decide) (List.Perm.refl _)⟩

/-- One hill-climbing iteration never decreases the recorded best
score. -/
lemma climbStep_bestScore_mono (cn : String) (m : LanguageModel) (s : ClimbState)
    (ij : ℕ × ℕ) : s.bestScore ≤ (climbStep cn m s ij).bestScore := by
  simp only [climbStep]
  split
  · split
    · exact le_of_lt (by assumption)
    · exact le_refl _
  · exact le_refl _

/-- Along any sequence of iterations the recorded best score is
non-decreasing. -/
lemma foldl_climbStep_bestScore_mono (cn : String) (m : LanguageModel) :
    ∀ (choices : List (ℕ × ℕ)) (s : ClimbState),
      s.bestScore ≤ (choices.foldl (climbStep cn m) s).bestScore := by
  intro choices
  induction choices with
  | nil => intro s; exact le_refl _
  | cons ij rest ih =>
    intro s
    exact le_trans (climbStep_bestScore_mono cn m s ij) (ih (climbStep cn m s ij))

/-- C3: within one hill-climbing restart, a neighbor obtained by
swapping two distinct positions is adopted exactly when its score
strictly exceeds the current score (otherwise the iteration leaves the
state unchanged); consequently the recorded best score is
non-decreasing over the iterations, and the returned best score is at
least the score of the initial key. -/
theorem hillClimb_monotone (cn : String) (m : LanguageModel) :
    (∀ (s : ClimbState) (i j : ℕ), i ≠ j →
      (scoreText (applySubstitutionToNormalized cn (swapKey s.currentKey i j)) m ≤
          s.currentScore →
        climbStep cn m s (i, j) = s) ∧
      (s.currentScore <
          scoreText (applySubstitutionToNormalized cn (swapKey s.currentKey i j)) m →
        (climbStep cn m s (i, j)).currentKey = swapKey s.currentKey i j ∧
          (climbStep cn m s (i, j)).currentPlain =
            applySubstitutionToNormalized cn (swapKey s.currentKey i j) ∧
          (climbStep cn m s (i, j)).currentScore =
            scoreText (applySubstitutionToNormalized cn (swapKey s.currentKey i j)) m)) ∧
      (∀ (choices : List (ℕ × ℕ)) (s : ClimbState),
        s.bestScore ≤ (choices.foldl (climbStep cn m) s).bestScore) ∧
      (∀ (initialKey : List ℕ) (choices : List (ℕ × ℕ)),
        scoreText (applySubstitutionToNormalized cn initialKey) m ≤
          (hillClimbSubstitution cn m initialKey choices).score) := by
  refine ⟨?_, foldl_climbStep_bestScore_mono cn m, ?_⟩
  · intro s i j _
    constructor
    · intro hle
      simp only [climbStep]
      rw [if_neg (not_lt.mpr hle)]
    · intro hlt
      simp only [climbStep]
      rw [if_pos hlt]
      split
      · exact ⟨rfl, rfl, rfl⟩
      · exact ⟨rfl, rfl, rfl⟩
  · intro initialKey choices
    have h := foldl_climbStep_bestScore_mono cn m choices
      ⟨initialKey, applySubstitutionToNormalized cn initialKey,
        scoreText (applySubstitutionToNormalized cn initialKey) m,
        initialKey, applySubstitutionToNormalized cn initialKey,
        scoreText (applySubstitutionToNormalized cn initialKey) m⟩
    simpa [hillClimbSubstitution] using h


/-- Witness for C3 at a concrete state and a concrete pair of distinct
positions. -/
theorem hillClimb_monotone_witness :
    (0 : ℕ) ≠ 1 ∧
      (scoreText (applySubstitutionToNormalized ("A") (swapKey S0.currentKey 0 1)) M0 ≤
          S0.currentScore →
        climbStep ("A") M0 S0 (0, 1) = S0) ∧
      scoreText (applySubstitutionToNormalized ("A") createIdentityKey) M0 ≤
        (hillClimbSubstitution ("A") M0 createIdentityKey [(0, 1)]).score :=
  ⟨by decide, ((hillClimb_monotone ("A") M0).1 S0 0 1 (by decide)).1,
    (hillClimb_monotone ("A") M0).2.2 createIdentityKey [(0, 1)]⟩

/-- Characterization of the strictly-greater global-best fold: a `none`
result means nothing ever beat the running score, and a `some b` result
is either the unchanged accumulator dominating the whole list, or the
earliest element of the list achieving the maximum (everything before
it is strictly smaller, everything after it is no larger). -/
lemma selectBest_fold_spec :
    ∀ (rs : List RestartResult) (a : Option RestartResult),
      (rs.foldl (fun acc res => if optScore acc < res.score then some res else acc) a = none →
        a = none ∧ ∀ r ∈ rs, ¬ (⊥ : EReal) < r.score) ∧
      (∀ b, rs.foldl (fun acc res => if optScore acc < res.score then some res else acc) a =
          some b →
        (a = some b ∧ ∀ r ∈ rs, r.score ≤ b.score) ∨
          (∃ pre post, rs = pre ++ b :: post ∧ optScore a < b.score ∧
            (∀ r ∈ pre, r.score < b.score) ∧ (∀ r ∈ post, r.score ≤ b.score))) := by
  intro rs
  induction rs with
  | nil =>
    intro a
    constructor
    · intro h
      exact ⟨h, by simp⟩
    · intro b h
      exact Or.inl ⟨h, by simp⟩
  | cons r rest ih =>
    intro a
    by_cases hc : optScore a < r.score
    · constructor
      · intro h
        simp only [List.foldl_cons, if_pos hc] at h
        obtain ⟨h1, _⟩ := (ih (some r)).1 h
        cases h1
      · intro b hb
        simp only [List.foldl_cons, if_pos hc] at hb
        rcases (ih (some r)).2 b hb with ⟨ha, hall⟩ | ⟨pre, post, hsplit, hgt, hpre, hpost⟩
        · have hrb : r = b := by injection ha
          subst hrb
          exact Or.inr ⟨[], rest, rfl, hc, by simp, hall⟩
        · refine Or.inr ⟨r :: pre, post, by rw [hsplit]; rfl, ?_, ?_, hpost⟩
          · exact hc.trans hgt
          · intro x hx
            rcases List.mem_cons.mp hx with hx1 | hx1
            · subst hx1; exact hgt
            · exact hpre x hx1
    · constructor
      · intro h
        simp only [List.foldl_cons, if_neg hc] at h
        obtain ⟨h1, h2⟩ := (ih a).1 h
        subst h1
        refine ⟨rfl, ?_⟩
        intro x hx
        rcases List.mem_cons.mp hx with hx1 | hx1
        · subst hx1; simpa [optScore] using hc
        · exact h2 x hx1
      · intro b hb
        simp only [List.foldl_cons, if_neg hc] at hb
        rcases (ih a).2 b hb with ⟨ha, hall⟩ | ⟨pre, post, hsplit, hgt, hpre, hpost⟩
        · refine Or.inl ⟨ha, ?_⟩
          intro x hx
          rcases List.mem_cons.mp hx with hx1 | hx1
          · subst hx1
            have hxa : x.score ≤ optScore a := not_lt.mp hc
            rw [ha] at hxa
            simpa [optScore] using hxa
          · exact hall x hx1
        · refine Or.inr ⟨r :: pre, post, by rw [hsplit]; rfl, hgt, ?_, hpost⟩
          intro x hx
          rcases List.mem_cons.mp hx with hx1 | hx1
          · subst hx1
            exact lt_of_le_of_lt (not_lt.mp hc) hgt
          · exact hpre x hx1

/-- C4 (amended): on a non-empty normalized ciphertext, provided at
least one restart scores above negative infinity,
`breakSubstitutionCipher` returns the result of the earliest restart
achieving the maximum score: every earlier restart scores strictly
less, every later restart scores no more.  (When every restart scores
negative infinity the strictly-greater update never fires and the
function fails with the internal error instead; see the
counterexample.) -/
theorem breakSubstitutionCipher_argmax (ct : String) (m : LanguageModel) (n : ℕ)
    (ui : Bool) (rnd : ℕ → (ℕ → ℕ) × List (ℕ × ℕ))
    (hne : (normalizeEnglish ct).length ≠ 0)
    (hex : ∃ r ∈ restartResults (normalizeEnglish ct) m n ui rnd, (⊥ : EReal) < r.score) :
    ∃ (b : RestartResult) (pre post : List RestartResult),
      restartResults (normalizeEnglish ct) m n ui rnd = pre ++ b :: post ∧
        breakSubstitutionCipher ct m n ui rnd =
          .ok ⟨b.plaintext, b.key, keyToMapping b.key, b.score⟩ ∧
        (∀ r ∈ pre, r.score < b.score) ∧
        (∀ r ∈ post, r.score ≤ b.score) := by
  cases hsel : selectBest (restartResults (normalizeEnglish ct) m n ui rnd) with
  | none =>
    obtain ⟨_, hall⟩ :=
      (selectBest_fold_spec (restartResults (normalizeEnglish ct) m n ui rnd) none).1 hsel
    obtain ⟨r, hr, hrs⟩ := hex
    exact absurd hrs (hall r hr)
  | some b =>
    rcases (selectBest_fold_spec (restartResults (normalizeEnglish ct) m n ui rnd) none).2
        b hsel with ⟨ha, _⟩ | ⟨pre, post, hsplit, _, hpre, hpost⟩
    · cases ha
    · refine ⟨b, pre, post, hsplit, ?_, hpre, hpost⟩
      simp only [breakSubstitutionCipher]
      rw [if_neg hne, hsel]

unseal List.merge List.mergeSort in
/-- Decoding `"AB"` with its frequency-seeded key maps the most
frequent cipher symbol to space and the next one to E. -/
lemma freq_decode_AB :
    applySubstitutionToNormalized ("AB") (buildFrequencyInitialKey ("AB")) = (" E") := by
  decide

unseal List.merge List.mergeSort in
/-- Decoding `"A"` with its frequency-seeded key maps its only symbol
to space. -/
lemma freq_decode_A :
    applySubstitutionToNormalized ("A") (buildFrequencyInitialKey ("A")) = (" ") := by
  decide

/-- The single restart of `breakSubstitutionCipher ("AB")` with an
empty iteration budget returns its seed key unchanged. -/
lemma restartResults_AB :
    restartResults (normalizeEnglish ("AB")) M0 1 true rnd0 =
      [⟨buildFrequencyInitialKey ("AB"), (" E"), scoreText (" E") M0⟩] := by
  rw [show normalizeEnglish ("AB") = ("AB") from by decide]
  simp only [restartResults, rnd0]
  rw [show List.range 1 = [0] from rfl]
  simp only [List.map_cons, List.map_nil]
  simp only [and_self, if_true]
  simp only [hillClimbSubstitution, List.foldl_nil]
  rw [freq_decode_AB]

/-- The score of the decoded seed of the `"AB"` instance is finite,
hence above bottom. -/
lemma score_E_above_bot : (⊥ : EReal) < scoreText (" E") M0 := by
  simp only [scoreText]
  rw [if_neg (by decide)]
  rw [show (normalizeEnglish (" E")).data.map alphIndex = [4] from by decide]
  exact EReal.bot_lt_coe _

/-- Witness for C4 at a concrete input with one restart whose score is
finite. -/
theorem breakSubstitutionCipher_argmax_witness :
    (normalizeEnglish ("AB")).length ≠ 0 ∧
      (∃ r ∈ restartResults (normalizeEnglish ("AB")) M0 1 true rnd0,
        (⊥ : EReal) < r.score) ∧
      ∃ (b : RestartResult) (pre post : List RestartResult),
        restartResults (normalizeEnglish ("AB")) M0 1 true rnd0 = pre ++ b :: post ∧
          breakSubstitutionCipher ("AB") M0 1 true rnd0 =
            .ok ⟨b.plaintext, b.key, keyToMapping b.key, b.score⟩ ∧
          (∀ r ∈ pre, r.score < b.score) ∧
          (∀ r ∈ post, r.score ≤ b.score) := by
  have hex : ∃ r ∈ restartResults (normalizeEnglish ("AB")) M0 1 true rnd0,
      (⊥ : EReal) < r.score := by
    refine ⟨⟨buildFrequencyInitialKey ("AB"), (" E"), scoreText (" E") M0⟩, ?_, score_E_above_bot⟩
    rw [restartResults_AB]
    exact List.mem_singleton.mpr rfl
  exact ⟨by decide, hex, breakSubstitutionCipher_argmax ("AB") M0 1 true rnd0 (by decide) hex⟩

/-- Counterexample to C4 as stated: for the non-empty normalized
ciphertext `"A"` with one restart and an empty iteration budget, the
frequency seed maps the only cipher symbol to space, so the decoded
text normalizes to the empty string and the only restart scores
negative infinity; the strictly-greater update never fires and
`breakSubstitutionCipher` fails with the internal error instead of
returning the (unique, hence maximal) restart result. -/
theorem breakSubstitutionCipher_argmax_cex :
    (normalizeEnglish ("A")).length ≠ 0 ∧
      restartResults (normalizeEnglish ("A")) M0 1 true rnd0 ≠ [] ∧
      breakSubstitutionCipher ("A") M0 1 true rnd0 = .error .noSolutionFound := by
  have hdec : applySubstitutionToNormalized ("A") (buildFrequencyInitialKey ("A")) = (" ") :=
    freq_decode_A
  have hscore : scoreText (" ") M0 = ⊥ := by
    simp only [scoreText]
    rw [if_pos (by decide)]
  have hres : restartResults (normalizeEnglish ("A")) M0 1 true rnd0 =
      [⟨buildFrequencyInitialKey ("A"), (" "), (⊥ : EReal)⟩] := by
    rw [show normalizeEnglish ("A") = ("A") from by decide]
    simp only [restartResults, rnd0]
    rw [show List.range 1 = [0] from rfl]
    simp only [List.map_cons, List.map_nil]
    simp only [and_self, if_true]
    simp only [hillClimbSubstitution, List.foldl_nil]
    rw [hdec, hscore]
  have hsel : selectBest [(⟨buildFrequencyInitialKey ("A"), (" "), (⊥ : EReal)⟩ : RestartResult)] =
      none := by
    simp only [selectBest, List.foldl_cons, List.foldl_nil, optScore]
    rw [if_neg (lt_irrefl _)]
  refine ⟨by decide, ?_, ?_⟩
  · rw [hres]; simp
  · simp only [breakSubstitutionCipher]
    rw [if_neg (by decide), hres, hsel]

/-- An add-k-smoothed ratio with positive `k` and a numerator count
bounded by the denominator count is a probability: strictly positive
(so its IEEE logarithm is finite) and at most one. -/
lemma smoothed_prob_pos_le_one (c r : ℕ) (k : ℝ) (hk : 0 < k) (hcr : c ≤ r) :
    0 < ((c : ℝ) + k) / ((r : ℝ) + k * 27) ∧ ((c : ℝ) + k) / ((r : ℝ) + k * 27) ≤ 1 := by
  have hden : (0 : ℝ) < (r : ℝ) + k * 27 := by positivity
  constructor
  · apply div_pos _ hden
    positivity
  · rw [div_le_one hden]
    have hcast : (c : ℝ) ≤ (r : ℝ) := Nat.cast_le.mpr hcr
    nlinarith

/-- Each adjacent-pair count is bounded by the number of pairs whose
first component matches. -/
lemma zip_count_le_countP (l : List (ℕ × ℕ)) (p s : ℕ) :
    l.count (p, s) ≤ l.countP (fun q => q.1 == p) := by
  rw [List.count]
  apply List.countP_mono_left
  intro x _ hx
  have hxe : x = (p, s) := by simpa using hx
  subst hxe
  simp

set_option maxRecDepth 4000 in
/-- C9 (amended): for every corpus accepted by the precondition and
options with a positive smoothing constant (the default is 1.0), the
trained model has exactly 27 unigram entries and 729 bigram entries,
every entry is at most 0, and every entry is the logarithm of a
strictly positive smoothed probability — which is exactly the
condition under which IEEE `Math.log` returns a finite double.  (With
`smoothingK = 0` an unseen symbol has probability 0 and its stored
entry is `Math.log 0 = -Infinity`, so the claim fails for arbitrary
options; see the counterexample.) -/
theorem model_entries_bounded (corpusRaw : String) (k lb : ℝ)
    (h2 : 2 ≤ (normalizeEnglish corpusRaw).length) (hk : 0 < k) :
    ∃ m : LanguageModel,
      buildLanguageModel corpusRaw k lb = .ok m ∧
        m.unigramLogProb.length = 27 ∧
        m.bigramLogProb.length = 729 ∧
        (∀ x ∈ m.unigramLogProb, x ≤ 0) ∧
        (∀ x ∈ m.bigramLogProb, x ≤ 0) ∧
        (∀ i, i < 27 →
          0 < smoothedUnigramProb ((normalizeEnglish corpusRaw).data.map alphIndex)
              (normalizeEnglish corpusRaw).length k i) ∧
        (∀ p s, p < 27 → s < 27 →
          0 < smoothedBigramProb ((normalizeEnglish corpusRaw).data.map alphIndex) k p s) := by
  have hnotlt : ¬ (normalizeEnglish corpusRaw).length < 2 := not_lt.mpr h2
  have hlen : ((normalizeEnglish corpusRaw).data.map alphIndex).length =
      (normalizeEnglish corpusRaw).length := by
    rw [List.length_map]
    rfl
  have huni : ∀ i : ℕ,
      0 < smoothedUnigramProb ((normalizeEnglish corpusRaw).data.map alphIndex)
          (normalizeEnglish corpusRaw).length k i ∧
        smoothedUnigramProb ((normalizeEnglish corpusRaw).data.map alphIndex)
          (normalizeEnglish corpusRaw).length k i ≤ 1 := by
    intro i
    rw [smoothedUnigramProb, countPass_uni]
    apply smoothed_prob_pos_le_one _ _ k hk
    rw [← hlen]
    exact List.count_le_length _ _
  have hbi : ∀ p s : ℕ,
      0 < smoothedBigramProb ((normalizeEnglish corpusRaw).data.map alphIndex) k p s ∧
        smoothedBigramProb ((normalizeEnglish corpusRaw).data.map alphIndex) k p s ≤ 1 := by
    intro p s
    rw [smoothedBigramProb, countPass_bi, countPass_row]
    exact smoothed_prob_pos_le_one _ _ k hk (zip_count_le_countP _ p s)
  refine
    ⟨⟨(List.range 27).map fun i =>
          Real.log
            (smoothedUnigramProb ((normalizeEnglish corpusRaw).data.map alphIndex)
              (normalizeEnglish corpusRaw).length k i),
        (List.range (27 * 27)).map fun n =>
          Real.log
            (smoothedBigramProb ((normalizeEnglish corpusRaw).data.map alphIndex) k
              (n / 27) (n % 27)),
        lb⟩, ?_, by rw [List.length_map, List.length_range],
      by rw [List.length_map, List.length_range], ?_, ?_,
      fun i _ => (huni i).1, fun p s _ _ => (hbi p s).1⟩
  · simp only [buildLanguageModel]
    rw [if_neg hnotlt]
  · intro x hx
    simp only [List.mem_map] at hx
    obtain ⟨i, _, hxi⟩ := hx
    rw [← hxi]
    exact Real.log_nonpos (le_of_lt (huni i).1) (huni i).2
  · intro x hx
    simp only [List.mem_map] at hx
    obtain ⟨n, _, hxn⟩ := hx
    rw [← hxn]
    exact Real.log_nonpos (le_of_lt (hbi _ _).1) (hbi _ _).2

/-- Witness for C9 (amended) at the corpus `"AB"` with the default
options. -/
theorem model_entries_bounded_witness :
    2 ≤ (normalizeEnglish ("AB")).length ∧ (0 : ℝ) < 1 ∧
      ∃ m : LanguageModel,
        buildLanguageModel ("AB") 1 0.7 = .ok m ∧
          m.unigramLogProb.length = 27 ∧ m.bigramLogProb.length = 729 := by
  refine ⟨by decide, by norm_num, ?_⟩
  obtain ⟨m, h1, h2, h3, -, -, -, -⟩ :=
    model_entries_bounded ("AB") 1 0.7 (by decide) (by norm_num)
  exact ⟨m, h1, h2, h3⟩

/-- Counterexample to C9 as stated: `buildLanguageModel` accepts the
options `smoothingK = 0`, and on the corpus `"AB"` the symbol with
index 2 (the letter C) never occurs, so its smoothed probability is 0
and the stored unigram entry is `Math.log 0 = -Infinity` — not a
finite real number. -/
theorem model_entries_bounded_cex :
    2 ≤ (normalizeEnglish ("AB")).length ∧
      (∃ m : LanguageModel, buildLanguageModel ("AB") 0 0.7 = .ok m) ∧
      smoothedUnigramProb ((normalizeEnglish ("AB")).data.map alphIndex)
          (normalizeEnglish ("AB")).length 0 2 = 0 := by
  refine ⟨by decide, ?_, ?_⟩
  · refine
      ⟨⟨(List.range 27).map fun i =>
            Real.log
              (smoothedUnigramProb ((normalizeEnglish ("AB")).data.map alphIndex)
                (normalizeEnglish ("AB")).length 0 i),
          (List.range (27 * 27)).map fun n =>
            Real.log
              (smoothedBigramProb ((normalizeEnglish ("AB")).data.map alphIndex) 0
                (n / 27) (n % 27)),
          0.7⟩, ?_⟩
    simp only [buildLanguageModel]
    rw [if_neg (by decide)]
  · have hidx : (normalizeEnglish ("AB")).data.map alphIndex = [0, 1] := by decide
    have hN : (normalizeEnglish ("AB")).length = 2 := by decide
    rw [hN, hidx, smoothedUnigramProb, countPass_uni,
      show (([0, 1] : List ℕ).count 2) = 0 from by decide]
    norm_num
